import Mathlib

/-!
Verification of the encrypted-database access core (SQLite VFS shim and
message router) against its specification.

The Go sources are embedded shallowly:

* `pkg/wechatvfs/vfs.go` — per-page decryption (`decryptPage`), the per-file
  page cache (`addToCache`), byte-range reads (`read`, `goWechatFileRead`)
  and the platform parameter table (`getDecryptParams`).
* `internal/wechatdb/datasource/v4` — the shard router `GetMessages`.

Bytes are modelled as `Nat` (values 0..255); Go slices become `List Nat`.
The cryptographic primitives (HMAC, AES-CBC) are abstracted as function
parameters: HMAC is `hmacFn : key → message → tag` and CBC decryption is
`aesDec : key → iv → ciphertext → plaintext` (in Go, `CryptBlocks` works
in place, so decryption preserves the byte length; theorems that need that
fact take it as an explicit hypothesis).
-/

/-! ## Constants of `pkg/wechatvfs/vfs.go` -/

/-- Byte encoding of the fixed plaintext header `"SQLite format 3\x00"`
written over the salt when page 0 is decrypted. -/
def sqliteHeaderBytes : List Nat :=
  [83, 81, 76, 105, 116, 101, 32, 102, 111, 114, 109, 97, 116, 32, 51, 0]

/-- Encoding of `binary.LittleEndian.PutUint32`: the 4-byte little-endian
form of a 32-bit number. -/
def u32le (n : Nat) : List Nat :=
  [n % 256, n / 256 % 256, n / 65536 % 256, n / 16777216 % 256]

/-- Model of the Go slice expression `l[a:b]`. -/
def goSlice (l : List Nat) (a b : Nat) : List Nat :=
  (l.take b).drop a

/-! ## Page cache (`WechatFile.cache`, `cacheOrder`, `addToCache`) -/

/-- Per-handle page cache: `entries` models the Go map
`cache map[int64][]byte`, `order` models `cacheOrder []int64` and
`maxSize` models `maxCacheSize` (100 in `openWechatFile`). -/
structure Cache where
  entries : List (Nat × List Nat)
  order : List Nat
  maxSize : Nat

/-- Lookup in the association list modelling the Go map read
`data, ok := wf.cache[pageNum]`. -/
def lookupEntry (p : Nat) : List (Nat × List Nat) → Option (List Nat)
  | [] => none
  | e :: es => if e.1 = p then some e.2 else lookupEntry p es

/-- Map write `wf.cache[pageNum] = data`: replace the binding if the key is
present, otherwise append it. -/
def insertEntry (p : Nat) (d : List Nat) : List (Nat × List Nat) → List (Nat × List Nat)
  | [] => [(p, d)]
  | e :: es => if e.1 = p then (p, d) :: es else e :: insertEntry p d es

/-- Map delete `delete(wf.cache, oldest)`. -/
def eraseEntry (p : Nat) (es : List (Nat × List Nat)) : List (Nat × List Nat) :=
  es.filter (fun e => e.1 != p)

/-- Model of `addToCache`: when `len(cacheOrder) >= maxCacheSize` the entry
at the front of `cacheOrder` (the oldest insertion) is evicted, then the
new page is stored and its index appended to `cacheOrder`.  A cache hit
never touches `cacheOrder`, so the discipline is insertion-ordered. -/
def addToCache (c : Cache) (p : Nat) (d : List Nat) : Cache :=
  let c1 :=
    if c.maxSize ≤ c.order.length then
      match c.order with
      | [] => c
      | oldest :: rest => { c with entries := eraseEntry oldest c.entries, order := rest }
    else c
  { c1 with entries := insertEntry p d c1.entries, order := c1.order ++ [p] }

/-! ## Decrypting one page (`WechatFile.decryptPage`) -/

/-- State of one open encrypted file (`WechatFile`).  `pages k` is the raw
content of page `k` as read from disk (`file.ReadAt` at `k * pageSize`). -/
structure WFile where
  pageSize : Nat
  reserve : Nat
  hmacSize : Nat
  encKey : List Nat
  macKey : List Nat
  pages : Nat → List Nat
  cache : Cache

/-- Model of `decryptPage`: cache lookup, the all-zero shortcut, HMAC
verification over `pageBuf[dataOffset : pageSize-reserve+IVSize]` followed
by the little-endian page number `pageNum+1`, AES-CBC decryption with the
IV at `pageSize-reserve`, and reassembly of the logical page (page 0 gets
the fixed SQLite header in place of the salt).  Returns the result and the
updated file state. -/
def decryptPage (hmacFn : List Nat → List Nat → List Nat)
    (aesDec : List Nat → List Nat → List Nat → List Nat)
    (wf : WFile) (pageNum : Nat) : Except String (List Nat) × WFile :=
  match lookupEntry pageNum wf.cache.entries with
  | some d => (.ok d, wf)
  | none =>
    let raw := wf.pages pageNum
    if raw.all (fun b => b = 0) then
      let res := List.replicate wf.pageSize 0
      (.ok res, { wf with cache := addToCache wf.cache pageNum res })
    else
      let dataOffset := if pageNum = 0 then 16 else 0
      let macMsg := goSlice raw dataOffset (wf.pageSize - wf.reserve + 16) ++ u32le (pageNum + 1)
      let calculatedMAC := hmacFn wf.macKey macMsg
      let hashMacStart := wf.pageSize - wf.reserve + 16
      let storedMAC := goSlice raw hashMacStart (hashMacStart + wf.hmacSize)
      if calculatedMAC = storedMAC then
        let iv := goSlice raw (wf.pageSize - wf.reserve) (wf.pageSize - wf.reserve + 16)
        let decrypted := aesDec wf.encKey iv (goSlice raw dataOffset (wf.pageSize - wf.reserve))
        let trailer := goSlice raw (wf.pageSize - wf.reserve) wf.pageSize
        let res :=
          if pageNum = 0 then sqliteHeaderBytes ++ decrypted ++ trailer
          else decrypted ++ trailer
        (.ok res, { wf with cache := addToCache wf.cache pageNum res })
      else
        (.error "HMAC verification failed", wf)

/-! ## Platform parameter table (`getDecryptParams`) -/

/-- Digest choice for the HMAC (`HashFunc` field in Go). -/
inductive HashAlg where
  | sha1
  | sha512
deriving DecidableEq, Repr

/-- Decryption parameters per platform and version (`DecryptParams`). -/
structure DecryptParams where
  pageSize : Nat
  iterCount : Nat
  hmacSize : Nat
  hashAlg : HashAlg
  reserve : Nat
deriving DecidableEq, Repr

/-- Model of `getDecryptParams`: the four platform/version entries with a
fall-through default of Windows v4, then the reserve size computed as
`IVSize + HmacSize` rounded up to a multiple of the AES block size. -/
def getDecryptParams (platform : String) (version : Int) : DecryptParams :=
  let base : DecryptParams :=
    if platform = "windows" ∧ version = 4 then ⟨4096, 256000, 64, .sha512, 0⟩
    else if platform = "darwin" ∧ version = 4 then ⟨4096, 256000, 64, .sha512, 0⟩
    else if platform = "windows" ∧ version = 3 then ⟨4096, 64000, 20, .sha1, 0⟩
    else if platform = "darwin" ∧ version = 3 then ⟨1024, 0, 20, .sha1, 0⟩
    else ⟨4096, 256000, 64, .sha512, 0⟩
  let r0 := 16 + base.hmacSize
  let r := if r0 % 16 = 0 then r0 else (r0 / 16 + 1) * 16
  { base with reserve := r }

/-! ## Byte-range reads (`WechatFile.read` and `goWechatFileRead`)

The read path is modelled over an abstract page fetch
`fetch : Nat → Except String (List Nat)` standing for `wf.decryptPage`;
`size` is `wf.decryptedSize()` (the raw file size). -/

/-- SQLite result codes used by the read callback. -/
def SQLITE_OK : Nat := 0

/-- Result code `SQLITE_IOERR_READ`. -/
def SQLITE_IOERR_READ : Nat := 266

/-- Result code `SQLITE_IOERR_SHORT_READ`. -/
def SQLITE_IOERR_SHORT_READ : Nat := 522

/-- Loop body of `WechatFile.read`: while bytes remain and the offset is
before the logical end, fetch the page containing `offset`, copy
`pageData[pageOffset : pageOffset+canRead]` where `canRead` is clamped to
the page end, the remaining request and the file end, and continue.  On a
fetch error the loop stops, returning the bytes copied so far together
with the error (the Go code then drops the error if anything was read).
The `canRead = 0` guard is unreachable when `pageSize > 0`; it only makes
the recursion total. -/
def readLoop (fetch : Nat → Except String (List Nat)) (pageSize size offset remaining : Nat) :
    List Nat × Option String :=
  if remaining = 0 ∨ size ≤ offset then ([], none)
  else
    let pageNum := offset / pageSize
    let pageOffset := offset % pageSize
    match fetch pageNum with
    | .error e => ([], some e)
    | .ok pageData =>
      let canRead := min (min (pageSize - pageOffset) remaining) (size - offset)
      if canRead = 0 then ([], none)
      else
        let rest := readLoop fetch pageSize size (offset + canRead) (remaining - canRead)
        (goSlice pageData pageOffset (pageOffset + canRead) ++ rest.1, rest.2)
  termination_by remaining
  decreasing_by omega

/-- Model of `WechatFile.read`: end-of-file when `offset >= size`
(`io.EOF`, modelled as the string `"EOF"`); otherwise run the loop, and
mirror the Go early return `if totalRead > 0 { return totalRead, nil }`
that swallows a mid-range fetch error once some bytes were copied. -/
def wfRead (fetch : Nat → Except String (List Nat)) (pageSize size bufLen offset : Nat) :
    List Nat × Option String :=
  if size ≤ offset then ([], some "EOF")
  else
    let r := readLoop fetch pageSize size offset bufLen
    match r.2 with
    | none => (r.1, none)
    | some e => if r.1 = [] then ([], some e) else (r.1, none)

/-- Model of the exported callback `goWechatFileRead`: a non-EOF error maps
to `SQLITE_IOERR_READ` (buffer left untouched, modelled as the bytes read
so far); otherwise the buffer is the bytes read padded with zeros up to
`amt`, with `SQLITE_IOERR_SHORT_READ` exactly when nothing was read and
`amt > 0`, else `SQLITE_OK`. -/
def goWechatFileRead (fetch : Nat → Except String (List Nat)) (pageSize size amt offset : Nat) :
    List Nat × Nat :=
  let r := wfRead fetch pageSize size amt offset
  match r.2 with
  | some e =>
    if e = "EOF" then
      (r.1 ++ List.replicate (amt - r.1.length) 0,
       if r.1.length = 0 ∧ 0 < amt then SQLITE_IOERR_SHORT_READ else SQLITE_OK)
    else (r.1, SQLITE_IOERR_READ)
  | none =>
    (r.1 ++ List.replicate (amt - r.1.length) 0,
     if r.1.length = 0 ∧ 0 < amt then SQLITE_IOERR_SHORT_READ else SQLITE_OK)

/-- Byte `i` of the decrypted file when page `k` decrypts to `pages k`. -/
def fileByte (pages : Nat → List Nat) (pageSize i : Nat) : Nat :=
  (pages (i / pageSize)).getD (i % pageSize) 0

/-- Bytes `[o, o+n)` of the decrypted file. -/
def fileSlice (pages : Nat → List Nat) (pageSize o n : Nat) : List Nat :=
  (List.range' o n).map (fileByte pages pageSize)

/-! ## Message router (`DataSource.GetMessages`, datasource/v4)

One message row carries the columns `GetMessages` reads: the shard-native
sort sequence, the row creation time (Unix seconds, as produced by
`startTime.Unix()` comparisons), the joined sender name and the content.
A `Store` is one shard of the catalog `ds.messageStores`: its time range,
the set of talker hashes present (`Talkers`, the `Msg_` table-name
suffixes) and, for each hash, the rows of that table in table order.
The MD5 talker digest is abstracted as `hashFn : String → String`, and a
compiled keyword regular expression as an optional row predicate `kw`
(`none` when `keyword` is empty). -/

/-- One decoded message row. -/
structure MsgRow where
  seq : Nat
  createTime : Int
  senderName : String
  content : String
deriving DecidableEq, Repr

/-- One message shard (`msgstore.Store`). -/
structure Store where
  startTime : Int
  endTime : Int
  talkers : List String
  tables : String → List MsgRow

/-- Whitespace test used by the trim step of the parameter parser. -/
def isSpaceChar (c : Char) : Bool :=
  c == ' ' || c == '\t' || c == '\n' || c == '\r'

/-- Strip leading and trailing whitespace from a character list. -/
def trimChars (l : List Char) : List Char :=
  ((l.dropWhile isSpaceChar).reverse.dropWhile isSpaceChar).reverse

/-- Split a character list on a separator character. -/
def splitChars (sep : Char) (l : List Char) : List (List Char) :=
  l.foldr
    (fun c acc =>
      match acc with
      | [] => [[c]]
      | g :: gs => if c = sep then [] :: g :: gs else (c :: g) :: gs)
    [[]]

/-- Modelled from the spec: `util.Str2List` (package `pkg/util` is not
under the sources) splits a comma-separated parameter into its non-empty
trimmed items, so that an empty or all-separator string yields the empty
list.  Both call sites in `GetMessages` pass the one-character separator
`","`, modelled here as a `Char`.  Claims only depend on this model
through its output. -/
def str2List (s : String) (sep : Char) : List String :=
  ((splitChars sep s.data).map (fun g => String.mk (trimChars g))).filter (fun t => t ≠ "")

/-- Insertion step of the sort by sequence number. -/
def insertSorted (r : MsgRow) : List MsgRow → List MsgRow
  | [] => [r]
  | x :: xs => if r.seq ≤ x.seq then r :: x :: xs else x :: insertSorted r xs

/-- Deterministic model of `sort.Slice(ms, func(i, j) { ms[i].Seq < ms[j].Seq })`
and of the SQL `ORDER BY m.sort_seq ASC`: a stable insertion sort on the
sequence number (Go's sort and SQLite leave tie order unspecified; the
claims below only depend on runs without ties). -/
def sortBySeq : List MsgRow → List MsgRow
  | [] => []
  | x :: xs => insertSorted x (sortBySeq xs)

/-- Row filter pushed down to SQL: `create_time >= start AND create_time <= end`
plus `n.user_name IN (senders)` when a sender list was given. -/
def rowPass (startT endT : Int) (senders : List String) (r : MsgRow) : Bool :=
  decide (startT ≤ r.createTime) && decide (r.createTime ≤ endT) &&
    (senders.isEmpty || senders.contains r.senderName)

/-- Result of the per-table SQL query: the rows of table `h`, filtered by
the pushed-down conditions and ordered by sequence number. -/
def queryRows (s : Store) (h : String) (startT endT : Int) (senders : List String) :
    List MsgRow :=
  sortBySeq ((s.tables h).filter (rowPass startT endT senders))

/-- Store selection in `GetMessages`: skip a store when
`store.EndTime.Before(startTime) || store.StartTime.After(endTime)`, keep
it when some requested talker's hash is among its tables. -/
def storeMatches (startT endT : Int) (talkers : List String) (hashFn : String → String)
    (s : Store) : Bool :=
  !(decide (s.endTime < startT) || decide (endT < s.startTime)) &&
    talkers.any (fun t => s.talkers.contains (hashFn t))

/-- Keyword filter applied after decoding: `regex.MatchString(plainText)`,
or vacuously true when no keyword was given. -/
def kwPass (kw : Option (MsgRow → Bool)) (r : MsgRow) : Bool :=
  match kw with
  | some p => p r
  | none => true

/-- Final pagination: `if offset >= len { return [] }` then the slice
`[offset : min (offset+limit) len]`. -/
def paginate (l : List MsgRow) (offset limit : Nat) : List MsgRow :=
  if l.length ≤ offset then [] else (l.drop offset).take limit

/-- Errors surfaced by `GetMessages` (package `internal/errors` is not
under the sources; its constructors are modelled as the non-nil error
values their call sites return). -/
inductive GMError where
  | talkerEmpty
  | timeRangeNotFound
deriving DecidableEq, Repr

/-- Row loop of `GetMessages`: append each row passing the keyword filter;
after each append, when `limit > 0` and the accumulator has reached
`offset+limit` rows, sort, paginate and return early. -/
def scanRows (limit offset : Nat) (kw : Option (MsgRow → Bool)) :
    List MsgRow → List MsgRow → List MsgRow × Option (List MsgRow)
  | [], acc => (acc, none)
  | r :: rs, acc =>
    if kwPass kw r then
      let acc2 := acc ++ [r]
      if 0 < limit ∧ offset + limit ≤ acc2.length then
        (acc2, some (paginate (sortBySeq acc2) offset limit))
      else scanRows limit offset kw rs acc2
    else scanRows limit offset kw rs acc

/-- Talker loop of `GetMessages` for one store: skip talkers whose hash is
not among the store's tables, otherwise scan the table's query result. -/
def scanTalkers (hashFn : String → String) (startT endT : Int) (senders : List String)
    (limit offset : Nat) (kw : Option (MsgRow → Bool)) (s : Store) :
    List String → List MsgRow → List MsgRow × Option (List MsgRow)
  | [], acc => (acc, none)
  | t :: ts, acc =>
    if s.talkers.contains (hashFn t) then
      match scanRows limit offset kw (queryRows s (hashFn t) startT endT senders) acc with
      | (acc2, some res) => (acc2, some res)
      | (acc2, none) => scanTalkers hashFn startT endT senders limit offset kw s ts acc2
    else scanTalkers hashFn startT endT senders limit offset kw s ts acc

/-- Store loop of `GetMessages`. -/
def scanStores (hashFn : String → String) (startT endT : Int) (talkers senders : List String)
    (limit offset : Nat) (kw : Option (MsgRow → Bool)) :
    List Store → List MsgRow → List MsgRow × Option (List MsgRow)
  | [], acc => (acc, none)
  | s :: ss, acc =>
    match scanTalkers hashFn startT endT senders limit offset kw s talkers acc with
    | (acc2, some res) => (acc2, some res)
    | (acc2, none) => scanStores hashFn startT endT talkers senders limit offset kw ss acc2

/-- Model of `DataSource.GetMessages`: talker validation, store selection
(with the `TimeRangeNotFound` error when nothing matches), the fan-out
accumulation with early exit, and the final sort plus pagination. -/
def getMessages (hashFn : String → String) (stores : List Store)
    (startT endT : Int) (talker sender : String) (kw : Option (MsgRow → Bool))
    (limit offset : Nat) : Except GMError (List MsgRow) :=
  if talker = "" then .error .talkerEmpty
  else
    let talkers := str2List talker ','
    if talkers.isEmpty then .error .talkerEmpty
    else
      let targetStores := stores.filter (storeMatches startT endT talkers hashFn)
      if targetStores.isEmpty then .error .timeRangeNotFound
      else
        let senders := str2List sender ','
        match scanStores hashFn startT endT talkers senders limit offset kw targetStores [] with
        | (_, some res) => .ok res
        | (acc, none) =>
          let sorted := sortBySeq acc
          if 0 < limit then .ok (paginate sorted offset limit) else .ok sorted

/-- Rows contributed by one (store, talker) pair of the fan-out, in the
order the loops visit them. -/
def talkerRows (hashFn : String → String) (startT endT : Int) (senders : List String)
    (kw : Option (MsgRow → Bool)) (s : Store) (t : String) : List MsgRow :=
  if s.talkers.contains (hashFn t) then
    (queryRows s (hashFn t) startT endT senders).filter (kwPass kw)
  else []

/-- Rows one store contributes across all requested talkers. -/
def storeRows (hashFn : String → String) (startT endT : Int) (senders : List String)
    (kw : Option (MsgRow → Bool)) (s : Store) (talkers : List String) : List MsgRow :=
  (talkers.map (talkerRows hashFn startT endT senders kw s)).flatten

/-- Every row the fan-out would accumulate without the early exit, in
visitation order. -/
def fullRows (hashFn : String → String) (startT endT : Int) (talkers senders : List String)
    (kw : Option (MsgRow → Bool)) (stores : List Store) : List MsgRow :=
  (stores.map (fun s => storeRows hashFn startT endT senders kw s talkers)).flatten

deriving instance DecidableEq for Except

set_option maxRecDepth 10000

/-- Well-formedness of a per-handle cache as `openWechatFile` creates it
and the sequential hit/miss discipline maintains it: capacity 100, the map
keys listed by `cacheOrder` without duplicates, at most 100 of them. -/
def CacheInv (c : Cache) : Prop :=
  c.maxSize = 100 ∧ c.entries.map Prod.fst = c.order ∧ c.order.Nodup ∧ c.order.length ≤ 100

/-- Freshly opened one-byte-page file whose every raw page is the zero
byte, used to drive the cache through 101 insertions. -/
def fifoProbeFile : WFile :=
  ⟨1, 0, 0, [], [], fun _ => [0], ⟨[], [], 100⟩⟩

/-- State after decrypting pages 0..99: the cache is full. -/
def fifoFilled : WFile :=
  (List.range 100).foldl
    (fun w k => (decryptPage (fun _ _ => []) (fun _ _ d => d) w k).2) fifoProbeFile

/-- State after a further cache hit on page 0 (a use of page 0). -/
def fifoAfterHit : WFile :=
  (decryptPage (fun _ _ => []) (fun _ _ d => d) fifoFilled 0).2

/-- State after then inserting page 100 into the full cache. -/
def fifoAfterInsert : WFile :=
  (decryptPage (fun _ _ => []) (fun _ _ d => d) fifoAfterHit 100).2

/-- Ten rows with sequence numbers 100..109 at time 5, the table of the
earlier shard in the pagination counterexample. -/
def pageRowsA : List MsgRow :=
  (List.range' 100 10).map (fun i => ⟨i, 5, "u", "m"⟩)

/-- Twenty rows with sequence numbers 1..20 at time 15, the table of the
later shard in the pagination counterexample. -/
def pageRowsB : List MsgRow :=
  (List.range' 1 20).map (fun i => ⟨i, 15, "u", "m"⟩)

/-- Earlier shard (time 0..10) holding `pageRowsA` for talker hash
`"alice"`. -/
def pageStoreA : Store :=
  ⟨0, 10, ["alice"], fun h => if h = "alice" then pageRowsA else []⟩

/-- Later shard (time 10..20) holding `pageRowsB` for talker hash
`"alice"`. -/
def pageStoreB : Store :=
  ⟨10, 20, ["alice"], fun h => if h = "alice" then pageRowsB else []⟩

/-- Twenty-five rows with sequence numbers 1..25 at time 5, used to
witness the amended pagination property on a single shard. -/
def paginationRows : List MsgRow :=
  (List.range' 1 25).map (fun i => ⟨i, 5, "u", "m"⟩)

/-- Single shard (time 0..10) holding `paginationRows` for talker hash
`"alice"`. -/
def paginationStore : Store :=
  ⟨0, 10, ["alice"], fun h => if h = "alice" then paginationRows else []⟩

/-! ## C8: the platform parameter table -/

/-- C8.  The parameter lookup returns the four table entries — Windows v4
and macOS v4 (the macOS platform identifier is `"darwin"`) with page size
4096, 256000 KDF iterations and a 64-byte SHA-512 HMAC; Windows v3 with
page size 4096, 64000 iterations and a 20-byte SHA-1 HMAC; macOS v3 with
page size 1024, no KDF and a 20-byte SHA-1 HMAC — the reserve is always
the smallest multiple of the 16-byte cipher block at least IV(16) plus the
HMAC size, and every other combination yields the Windows v4 entry. -/
theorem getDecryptParams_table :
    getDecryptParams "windows" 4 = ⟨4096, 256000, 64, .sha512, 80⟩ ∧
    getDecryptParams "darwin" 4 = ⟨4096, 256000, 64, .sha512, 80⟩ ∧
    getDecryptParams "windows" 3 = ⟨4096, 64000, 20, .sha1, 48⟩ ∧
    getDecryptParams "darwin" 3 = ⟨1024, 0, 20, .sha1, 48⟩ ∧
    (∀ p v, (getDecryptParams p v).reserve % 16 = 0 ∧
      16 + (getDecryptParams p v).hmacSize ≤ (getDecryptParams p v).reserve ∧
      (getDecryptParams p v).reserve < 16 + (getDecryptParams p v).hmacSize + 16) ∧
    (∀ p v, ¬((p = "windows" ∧ v = 4) ∨ (p = "darwin" ∧ v = 4) ∨
        (p = "windows" ∧ v = 3) ∨ (p = "darwin" ∧ v = 3)) →
      getDecryptParams p v = getDecryptParams "windows" 4) := by
  refine ⟨by decide, by decide, by decide, by decide, ?_, ?_⟩
  · intro p v
    unfold getDecryptParams
    split_ifs <;> simp
  · intro p v h
    unfold getDecryptParams
    split_ifs with h1 h2 h3 h4 <;> simp_all

/-- Witness for C8's universal clauses at the unknown combination
`("linux", 5)`. -/
theorem getDecryptParams_table_witness :
    getDecryptParams "linux" 5 = getDecryptParams "windows" 4 :=
  getDecryptParams_table.2.2.2.2.2 "linux" 5 (by decide)

/-! ## C9: the all-zero page shortcut -/

/-- C9.  A raw page consisting entirely of zero bytes decodes to an
all-zero logical page of `pageSize` bytes, never an error; the result does
not depend on the HMAC or AES functions or on any key material, so no
HMAC verification or AES decryption takes place. -/
theorem decryptPage_zero_page (h1 h2 : List Nat → List Nat → List Nat)
    (a1 a2 : List Nat → List Nat → List Nat → List Nat) (wf : WFile) (p : Nat)
    (hmiss : lookupEntry p wf.cache.entries = none)
    (hz : (wf.pages p).all (fun b => b = 0) = true) :
    decryptPage h1 a1 wf p = decryptPage h2 a2 wf p ∧
    (decryptPage h1 a1 wf p).1 = .ok (List.replicate wf.pageSize 0) := by
  unfold decryptPage
  rw [hmiss]
  simp only [hz, if_true]
  exact ⟨trivial, trivial⟩

/-- Witness for C9: a file whose page 3 is four zero bytes. -/
theorem decryptPage_zero_page_witness :
    (decryptPage (fun _ _ => [1]) (fun _ _ d => d)
      ⟨4, 0, 0, [], [], fun _ => [0, 0, 0, 0], ⟨[], [], 100⟩⟩ 3).1 =
      .ok (List.replicate 4 0) :=
  (decryptPage_zero_page (fun _ _ => [1]) (fun _ _ => [2]) (fun _ _ d => d) (fun _ _ _ => [])
    ⟨4, 0, 0, [], [], fun _ => [0, 0, 0, 0], ⟨[], [], 100⟩⟩ 3 (by decide) (by decide)).2

/-! ## C1: HMAC verification gates every non-zero page -/

/-- C1.  For a page that is not all zeros and not cached, when the HMAC of
the ciphertext region `[dataOffset, pageSize-reserve+16)` (where
`dataOffset` is 16 on page 0 and 0 otherwise) concatenated with the 4-byte
little-endian `pageNum+1`, keyed by the MAC key, differs from the tag
stored at `pageSize-reserve+16`, `decryptPage` returns an error, yields no
page data, and leaves the file state — in particular the cache —
unchanged: a mismatch is never silently accepted. -/
theorem decryptPage_hmac_mismatch (hmacFn : List Nat → List Nat → List Nat)
    (aesDec : List Nat → List Nat → List Nat → List Nat) (wf : WFile) (pageNum : Nat)
    (hmiss : lookupEntry pageNum wf.cache.entries = none)
    (hnz : (wf.pages pageNum).all (fun b => b = 0) = false)
    (hmismatch :
      hmacFn wf.macKey
        (goSlice (wf.pages pageNum) (if pageNum = 0 then 16 else 0)
            (wf.pageSize - wf.reserve + 16) ++ u32le (pageNum + 1)) ≠
      goSlice (wf.pages pageNum) (wf.pageSize - wf.reserve + 16)
        (wf.pageSize - wf.reserve + 16 + wf.hmacSize)) :
    (decryptPage hmacFn aesDec wf pageNum).1 = .error "HMAC verification failed" ∧
    (decryptPage hmacFn aesDec wf pageNum).2 = wf := by
  unfold decryptPage
  rw [hmiss]
  simp only [hnz, Bool.false_eq_true, if_false, if_neg hmismatch]
  exact ⟨trivial, trivial⟩

/-! ## C2: the decrypted page 0 starts with the plaintext SQLite header -/

/-- Length of a Go slice `l[a:b]` in the model. -/
theorem goSlice_length (l : List Nat) (a b : Nat) :
    (goSlice l a b).length = min b l.length - a := by
  simp [goSlice]

/-- C2.  On the successful decryption path for page 0 (page not cached,
not all zeros, HMAC matching, and with AES-CBC preserving the byte length
as `CryptBlocks` does), the logical page is exactly the fixed 16-byte
plaintext SQLite header — written in place of the raw salt bytes,
whatever they contain — followed by the decrypted ciphertext and the
unchanged reserve trailer, and has `pageSize` bytes. -/
theorem decryptPage_page0_header (hmacFn : List Nat → List Nat → List Nat)
    (aesDec : List Nat → List Nat → List Nat → List Nat) (wf : WFile)
    (hmiss : lookupEntry 0 wf.cache.entries = none)
    (hnz : (wf.pages 0).all (fun b => b = 0) = false)
    (hmatch : hmacFn wf.macKey
        (goSlice (wf.pages 0) 16 (wf.pageSize - wf.reserve + 16) ++ u32le 1) =
      goSlice (wf.pages 0) (wf.pageSize - wf.reserve + 16)
        (wf.pageSize - wf.reserve + 16 + wf.hmacSize))
    (hlen : (wf.pages 0).length = wf.pageSize)
    (hres : wf.reserve + 16 ≤ wf.pageSize)
    (haes : ∀ k iv d, (aesDec k iv d).length = d.length) :
    (decryptPage hmacFn aesDec wf 0).1 =
      .ok (sqliteHeaderBytes ++
        aesDec wf.encKey
          (goSlice (wf.pages 0) (wf.pageSize - wf.reserve) (wf.pageSize - wf.reserve + 16))
          (goSlice (wf.pages 0) 16 (wf.pageSize - wf.reserve)) ++
        goSlice (wf.pages 0) (wf.pageSize - wf.reserve) wf.pageSize) ∧
    (∀ v, (decryptPage hmacFn aesDec wf 0).1 = .ok v →
      v.take 16 = sqliteHeaderBytes ∧
      v.drop (wf.pageSize - wf.reserve) =
        goSlice (wf.pages 0) (wf.pageSize - wf.reserve) wf.pageSize ∧
      v.length = wf.pageSize) := by
  have hfst : (decryptPage hmacFn aesDec wf 0).1 =
      .ok (sqliteHeaderBytes ++
        aesDec wf.encKey
          (goSlice (wf.pages 0) (wf.pageSize - wf.reserve) (wf.pageSize - wf.reserve + 16))
          (goSlice (wf.pages 0) 16 (wf.pageSize - wf.reserve)) ++
        goSlice (wf.pages 0) (wf.pageSize - wf.reserve) wf.pageSize) := by
    unfold decryptPage
    rw [hmiss]
    simp only [hnz, Bool.false_eq_true, if_false, eq_self_iff_true, if_true, Nat.zero_add]
    rw [if_pos hmatch]
  refine ⟨hfst, ?_⟩
  intro v hv
  rw [hfst] at hv
  have hveq := Except.ok.inj hv
  subst hveq
  have hdecLen : (aesDec wf.encKey
      (goSlice (wf.pages 0) (wf.pageSize - wf.reserve) (wf.pageSize - wf.reserve + 16))
      (goSlice (wf.pages 0) 16 (wf.pageSize - wf.reserve))).length =
      wf.pageSize - wf.reserve - 16 := by
    rw [haes, goSlice_length, hlen]
    omega
  have htrailLen : (goSlice (wf.pages 0) (wf.pageSize - wf.reserve) wf.pageSize).length =
      wf.reserve := by
    rw [goSlice_length, hlen]
    omega
  have hhdrLen : sqliteHeaderBytes.length = 16 := by decide
  refine ⟨?_, ?_, ?_⟩
  · rw [List.append_assoc, List.take_left' hhdrLen]
  · exact List.drop_left' (by rw [List.length_append, hhdrLen, hdecLen]; omega)
  · rw [List.length_append, List.length_append, hhdrLen, hdecLen, htrailLen]
    omega

/-- Witness for C2: a 48-byte page of ones with reserve 32 and a 16-byte
tag that the (constant) HMAC reproduces; the decrypted page is the SQLite
header followed by the untouched 32-byte trailer. -/
theorem decryptPage_page0_header_witness :
    (decryptPage (fun _ _ => List.replicate 16 1) (fun _ _ d => d)
      ⟨48, 32, 16, [], [], fun _ => List.replicate 48 1, ⟨[], [], 100⟩⟩ 0).1 =
      .ok (sqliteHeaderBytes ++ List.replicate 32 1) :=
  ((decryptPage_page0_header (fun _ _ => List.replicate 16 1) (fun _ _ d => d)
    ⟨48, 32, 16, [], [], fun _ => List.replicate 48 1, ⟨[], [], 100⟩⟩
    (by decide) (by decide) (by decide) (by decide) (by decide) (fun _ _ _ => rfl)).1).trans
    (by decide)

/-- Witness for C1: a 48-byte page of ones whose stored tag differs from
the (constant-empty) computed HMAC. -/
theorem decryptPage_hmac_mismatch_witness :
    (decryptPage (fun _ _ => []) (fun _ _ d => d)
      ⟨48, 32, 16, [], [], fun _ => List.replicate 48 1, ⟨[], [], 100⟩⟩ 0).1 =
      .error "HMAC verification failed" :=
  (decryptPage_hmac_mismatch (fun _ _ => []) (fun _ _ d => d)
    ⟨48, 32, 16, [], [], fun _ => List.replicate 48 1, ⟨[], [], 100⟩⟩ 0
    (by decide) (by decide) (by decide)).1

/-! ## C5: cache bound and eviction policy

The claim's strict-LRU part fails: a cache hit does not refresh recency
(`decryptPage` returns without touching `cacheOrder`), and `addToCache`
always evicts `cacheOrder[0]`, the earliest-inserted page.  The capacity
bound holds. -/

/-- Lookup misses are exactly the absent keys. -/
theorem lookupEntry_eq_none (p : Nat) (es : List (Nat × List Nat)) :
    lookupEntry p es = none ↔ p ∉ es.map Prod.fst := by
  induction es with
  | nil => simp [lookupEntry]
  | cons e es ih =>
    by_cases h : e.1 = p
    · simp [lookupEntry, h]
    · simp only [lookupEntry, if_neg h, List.map_cons, List.mem_cons, ih]
      constructor
      · intro hn hor
        rcases hor with h1 | h2
        · exact h h1.symm
        · exact hn h2
      · intro hn
        exact fun h2 => hn (Or.inr h2)

theorem insertEntry_append (p : Nat) (d : List Nat) (es : List (Nat × List Nat))
    (h : p ∉ es.map Prod.fst) : insertEntry p d es = es ++ [(p, d)] := by
  induction es with
  | nil => rfl
  | cons e es ih =>
    simp only [List.map_cons, List.mem_cons, not_or] at h
    have hne : ¬ e.1 = p := fun he => h.1 (Eq.symm he)
    simp only [insertEntry, if_neg hne, List.cons_append]
    rw [ih h.2]

theorem eraseEntry_head (o : Nat) (e : Nat × List Nat) (es : List (Nat × List Nat))
    (he : e.1 = o) (h : o ∉ es.map Prod.fst) :
    eraseEntry o (e :: es) = es := by
  simp only [eraseEntry, List.filter_cons, he, bne_self_eq_false, Bool.false_eq_true, if_false]
  apply List.filter_eq_self.mpr
  intro a ha
  simp only [bne_iff_ne, ne_eq]
  intro contra
  exact h (contra ▸ List.mem_map_of_mem Prod.fst ha)

theorem addToCache_spec (c : Cache) (p : Nat) (d : List Nat)
    (hInv : CacheInv c) (hp : lookupEntry p c.entries = none) :
    CacheInv (addToCache c p d) ∧
    (c.order.length < 100 → (addToCache c p d).entries.map Prod.fst = c.order ++ [p]) ∧
    (∀ old rest, c.order = old :: rest → c.order.length = 100 →
      (addToCache c p d).entries.map Prod.fst = rest ++ [p]) := by
  obtain ⟨ent, ord, ms⟩ := c
  obtain ⟨hmax, hkeys, hnodup, hbound⟩ := hInv
  simp only at hmax hkeys hnodup hbound
  subst hmax
  rw [lookupEntry_eq_none, hkeys] at hp
  by_cases hfull : (100 : Nat) ≤ ord.length
  · -- eviction path
    have h100 : ord.length = 100 := by omega
    obtain ⟨old, rest, horder⟩ : ∃ old rest, ord = old :: rest := by
      cases ho : ord with
      | nil => rw [ho] at h100; simp at h100
      | cons a l => exact ⟨a, l, rfl⟩
    subst horder
    obtain ⟨e, es, hentries⟩ : ∃ e es, ent = e :: es := by
      cases he : ent with
      | nil => rw [he] at hkeys; simp at hkeys
      | cons a l => exact ⟨a, l, rfl⟩
    subst hentries
    simp only [List.map_cons, List.cons.injEq] at hkeys
    have hkey1 : e.1 = old := hkeys.1
    have hkey2 : es.map Prod.fst = rest := hkeys.2
    have holdrest : old ∉ rest := (List.nodup_cons.mp hnodup).1
    have hnodup2 : rest.Nodup := (List.nodup_cons.mp hnodup).2
    have hpnotrest : p ∉ rest := by
      simp only [List.mem_cons, not_or] at hp
      exact hp.2
    have hstep : addToCache ⟨e :: es, old :: rest, 100⟩ p d =
        ⟨insertEntry p d es, rest ++ [p], 100⟩ := by
      simp only [addToCache, if_pos hfull]
      rw [eraseEntry_head old e es hkey1 (hkey2 ▸ holdrest)]
    rw [hstep]
    have hins : insertEntry p d es = es ++ [(p, d)] :=
      insertEntry_append p d es (hkey2 ▸ hpnotrest)
    have hkeysNew : (insertEntry p d es).map Prod.fst = rest ++ [p] := by
      rw [hins]
      simp [hkey2]
    refine ⟨⟨rfl, hkeysNew, ?_, ?_⟩, ?_, ?_⟩
    · simp [List.nodup_append, hnodup2, hpnotrest]
    · simp only [List.length_append, List.length_singleton]
      simp only [List.length_cons] at h100
      omega
    · intro hlt
      simp only [List.length_cons] at hlt h100
      omega
    · intro old2 rest2 ho2 _
      cases ho2
      exact hkeysNew
  · -- no eviction
    have hstep : addToCache ⟨ent, ord, 100⟩ p d =
        ⟨insertEntry p d ent, ord ++ [p], 100⟩ := by
      simp only [addToCache, if_neg hfull]
    rw [hstep]
    have hins : insertEntry p d ent = ent ++ [(p, d)] :=
      insertEntry_append p d ent (hkeys ▸ hp)
    have hkeysNew : (insertEntry p d ent).map Prod.fst = ord ++ [p] := by
      rw [hins]
      simp [hkeys]
    refine ⟨⟨rfl, hkeysNew, ?_, ?_⟩, ?_, ?_⟩
    · simp [List.nodup_append, hnodup, hp]
    · simp only [List.length_append, List.length_singleton]
      omega
    · intro _
      exact hkeysNew
    · intro old rest horder h100
      exact absurd (show ord.length = 100 from h100) (by omega)

theorem cacheInv_length (c : Cache) (hc : CacheInv c) : c.entries.length ≤ 100 := by
  have h := congrArg List.length hc.2.1
  simp only [List.length_map] at h
  have hb := hc.2.2.2
  omega

/-- Counterexample to C5 as stated: after filling the cache with pages
0..99, a hit on page 0 (the most recent use) and then the insertion of
page 100 evicts page 0 itself, while page 1 — the least-recently-used
page — stays cached: eviction is insertion-ordered, not LRU. -/
theorem addToCache_not_lru_counterexample :
    (decryptPage (fun _ _ => []) (fun _ _ d => d) fifoFilled 0).1 = .ok [0] ∧
    lookupEntry 0 fifoAfterInsert.cache.entries = none ∧
    lookupEntry 1 fifoAfterInsert.cache.entries = some [0] := by
  decide

/-- C5 (amended).  The per-handle cache never holds more than 100 pages
and the well-formedness invariant is preserved by every `decryptPage`
step; a cache hit leaves the state (hence recency bookkeeping) completely
unchanged, and when an insertion into a full cache succeeds the evicted
page is the earliest-inserted one — the head of `cacheOrder` — not the
least-recently-used one. -/
theorem decryptPage_cache_fifo_bound (hmacFn : List Nat → List Nat → List Nat)
    (aesDec : List Nat → List Nat → List Nat → List Nat) (wf : WFile) (p : Nat)
    (hInv : CacheInv wf.cache) :
    CacheInv (decryptPage hmacFn aesDec wf p).2.cache ∧
    (decryptPage hmacFn aesDec wf p).2.cache.entries.length ≤ 100 ∧
    (∀ d, lookupEntry p wf.cache.entries = some d → (decryptPage hmacFn aesDec wf p).2 = wf) ∧
    (∀ old rest, lookupEntry p wf.cache.entries = none →
      wf.cache.order = old :: rest → wf.cache.order.length = 100 → old ≠ p →
      (∃ v, (decryptPage hmacFn aesDec wf p).1 = Except.ok v) →
      lookupEntry old (decryptPage hmacFn aesDec wf p).2.cache.entries = none) := by

  have hevict : ∀ res old rest, lookupEntry p wf.cache.entries = none →
      wf.cache.order = old :: rest → wf.cache.order.length = 100 → old ≠ p →
      lookupEntry old (addToCache wf.cache p res).entries = none := by
    intro res old rest hnone horder h100 hne
    have hspec := (addToCache_spec wf.cache p res hInv hnone).2.2 old rest horder h100
    rw [lookupEntry_eq_none, hspec]
    have holdrest : old ∉ rest := by
      have hnodup := hInv.2.2.1
      rw [horder] at hnodup
      exact (List.nodup_cons.mp hnodup).1
    simp only [List.mem_append, List.mem_singleton, not_or]
    exact ⟨holdrest, hne⟩
  unfold decryptPage
  cases hx : lookupEntry p wf.cache.entries with
  | some d =>
    refine ⟨hInv, cacheInv_length _ hInv, fun d2 _ => rfl, ?_⟩
    intro old rest hnone
    exact absurd hnone (by simp)
  | none =>
    by_cases hz : (wf.pages p).all (fun b => b = 0) = true
    · simp only [hz, if_true]
      have hspec := addToCache_spec wf.cache p (List.replicate wf.pageSize 0) hInv hx
      refine ⟨hspec.1, cacheInv_length _ hspec.1, ?_, ?_⟩
      · intro d2 hd2
        exact absurd hd2 (by simp)
      · intro old rest _ horder h100 hne _
        exact hevict _ old rest hx horder h100 hne
    · simp only [Bool.not_eq_true] at hz
      simp only [hz, Bool.false_eq_true, if_false]
      by_cases hm : hmacFn wf.macKey
          (goSlice (wf.pages p) (if p = 0 then 16 else 0) (wf.pageSize - wf.reserve + 16) ++
            u32le (p + 1)) =
          goSlice (wf.pages p) (wf.pageSize - wf.reserve + 16)
            (wf.pageSize - wf.reserve + 16 + wf.hmacSize)
      · rw [if_pos hm]
        have hspec : ∀ dd, CacheInv (addToCache wf.cache p dd) :=
          fun dd => (addToCache_spec wf.cache p dd hInv hx).1
        refine ⟨hspec _, cacheInv_length _ (hspec _), ?_, ?_⟩
        · intro d2 hd2
          exact absurd hd2 (by simp)
        · intro old rest _ horder h100 hne _
          exact hevict _ old rest hx horder h100 hne
      · rw [if_neg hm]
        refine ⟨hInv, cacheInv_length _ hInv, ?_, ?_⟩
        · intro d2 hd2
          exact absurd hd2 (by simp)
        · intro old rest _ horder h100 hne hok
          obtain ⟨v, hv⟩ := hok
          exact absurd hv (by simp)

/-- Witness for C5 (amended) at a concrete well-formed cache: a hit on the
cached page 5 leaves the file state unchanged. -/
theorem decryptPage_cache_fifo_bound_witness :
    (decryptPage (fun _ _ => []) (fun _ _ d => d)
      ⟨1, 0, 0, [], [], fun _ => [0], ⟨[(5, [0])], [5], 100⟩⟩ 5).2 =
      ⟨1, 0, 0, [], [], fun _ => [0], ⟨[(5, [0])], [5], 100⟩⟩ :=
  (decryptPage_cache_fifo_bound (fun _ _ => []) (fun _ _ d => d)
    ⟨1, 0, 0, [], [], fun _ => [0], ⟨[(5, [0])], [5], 100⟩⟩ 5
    ⟨rfl, by decide, by decide, by decide⟩).2.2.1 [0] (by decide)

/-! ## C4 and C10: the error paths of `GetMessages` -/

/-- Counterexample to C4 as stated: with one store covering time 0..10 for
talker hash `"bobhash"`, a query for `"alice"` over 20..30 selects no
store, and `GetMessages` returns the `TimeRangeNotFound` error — not an
empty result without error. -/
theorem getMessages_no_store_counterexample :
    getMessages id [⟨0, 10, ["bobhash"], fun _ => []⟩] 20 30 "alice" "" none 5 0 =
      .error .timeRangeNotFound ∧
    getMessages id [⟨0, 10, ["bobhash"], fun _ => []⟩] 20 30 "alice" "" none 5 0 ≠
      .ok [] := by
  refine ⟨by decide, ?_⟩
  intro h
  rw [(by decide : getMessages id [(⟨0, 10, ["bobhash"], fun _ => []⟩ : Store)] 20 30
      "alice" "" none 5 0 = .error .timeRangeNotFound)] at h
  exact absurd h (by decide)

/-- C4 (amended).  Whenever a well-formed talker query selects no store —
no store's time range intersects the requested range while also containing
a requested talker's hash — `GetMessages` returns the `TimeRangeNotFound`
error and no messages. -/
theorem getMessages_no_store_error (hashFn : String → String) (stores : List Store)
    (startT endT : Int) (talker sender : String) (kw : Option (MsgRow → Bool))
    (limit offset : Nat)
    (ht : talker ≠ "")
    (ht2 : str2List talker ',' ≠ [])
    (hs : stores.filter (storeMatches startT endT (str2List talker ',') hashFn) = []) :
    getMessages hashFn stores startT endT talker sender kw limit offset =
      .error .timeRangeNotFound := by
  unfold getMessages
  rw [if_neg ht]
  rw [if_neg (by simp [List.isEmpty_iff, ht2])]
  rw [if_pos (by simp [List.isEmpty_iff, hs])]

/-- Witness for C4 (amended) at the concrete non-matching query of the
counterexample. -/
theorem getMessages_no_store_error_witness :
    getMessages id [⟨0, 10, ["bobhash"], fun _ => []⟩] 20 30 "alice" "" none 5 0 =
      .error .timeRangeNotFound :=
  getMessages_no_store_error id [⟨0, 10, ["bobhash"], fun _ => []⟩] 20 30 "alice" "" none 5 0
    (by decide) (by decide) rfl

/-- C10.  A query whose talker string is empty, or parses to an empty
comma-separated list, is rejected with the `ErrTalkerEmpty` error and
yields no messages, for every time range, sender, keyword, limit and
offset. -/
theorem getMessages_talker_empty (hashFn : String → String) (stores : List Store)
    (startT endT : Int) (talker sender : String) (kw : Option (MsgRow → Bool))
    (limit offset : Nat)
    (h : talker = "" ∨ str2List talker ',' = []) :
    getMessages hashFn stores startT endT talker sender kw limit offset =
      .error .talkerEmpty := by
  unfold getMessages
  rcases h with h | h
  · rw [if_pos h]
  · by_cases he : talker = ""
    · rw [if_pos he]
    · rw [if_neg he]
      rw [if_pos (by simp [List.isEmpty_iff, h])]

/-- Witness for C10 at the all-separator talker string `" , "`. -/
theorem getMessages_talker_empty_witness :
    getMessages id [] 0 0 " , " "" none 0 0 = .error .talkerEmpty :=
  getMessages_talker_empty id [] 0 0 " , " "" none 0 0 (Or.inr (by decide))

/-! ## C3 and C6: routing, merging and pagination of GetMessages -/

/-- Pagination equals drop-then-take. -/
theorem paginate_eq (l : List MsgRow) (o lim : Nat) :
    paginate l o lim = (l.drop o).take lim := by
  unfold paginate
  split_ifs with h
  · rw [List.drop_eq_nil_of_le h, List.take_nil]
  · rfl

/-- Insertion sort by sequence number leaves an already-sorted list
unchanged. -/
theorem sortBySeq_eq_self (l : List MsgRow)
    (h : l.Pairwise (fun a b => a.seq ≤ b.seq)) : sortBySeq l = l := by
  induction l with
  | nil => rfl
  | cons x xs ih =>
    rw [sortBySeq, ih h.of_cons]
    cases xs with
    | nil => rfl
    | cons y ys =>
      rw [insertSorted, if_pos ((List.pairwise_cons.mp h).1 y (by simp))]

/-- Behaviour of the row loop: starting below the early-exit threshold, it
either appends every keyword-passing row (no exit), or stops exactly when
the accumulator reaches `offset+limit` rows, returning that prefix sorted
and paginated. -/
theorem scanRows_spec (limit offset : Nat) (kw : Option (MsgRow → Bool))
    (rows : List MsgRow) :
    ∀ acc : List MsgRow, (limit = 0 ∨ acc.length < offset + limit) →
    scanRows limit offset kw rows acc =
      if 0 < limit ∧ offset + limit ≤ (acc ++ rows.filter (kwPass kw)).length then
        ((acc ++ rows.filter (kwPass kw)).take (offset + limit),
         some (paginate (sortBySeq ((acc ++ rows.filter (kwPass kw)).take (offset + limit)))
           offset limit))
      else (acc ++ rows.filter (kwPass kw), none) := by
  induction rows with
  | nil =>
    intro acc hacc
    rw [if_neg (by simp; intro hl; omega)]
    simp [scanRows]
  | cons r rs ih =>
    intro acc hacc
    by_cases hkw : kwPass kw r
    · rw [scanRows, if_pos hkw]
      simp only [List.filter_cons, hkw, if_pos]
      by_cases hexit : 0 < limit ∧ offset + limit ≤ (acc ++ [r]).length
      · rw [if_pos hexit]
        have hlen : (acc ++ [r]).length = offset + limit := by
          simp only [List.length_append, List.length_singleton] at hexit ⊢
          omega
        have htake : (acc ++ r :: rs.filter (kwPass kw)).take (offset + limit) = acc ++ [r] := by
          have : acc ++ r :: rs.filter (kwPass kw) = (acc ++ [r]) ++ rs.filter (kwPass kw) := by
            simp
          rw [this, List.take_left' hlen]
        rw [if_pos ⟨hexit.1, by
          simp only [List.length_append, List.length_cons]
          simp only [List.length_append, List.length_singleton] at hlen
          omega⟩]
        rw [htake]
      · rw [if_neg hexit]
        have hacc2 : limit = 0 ∨ (acc ++ [r]).length < offset + limit := by
          rcases hacc with h | h
          · exact Or.inl h
          · by_cases hl : 0 < limit
            · right
              rcases Nat.lt_or_ge ((acc ++ [r]).length) (offset + limit) with h2 | h2
              · exact h2
              · exact absurd ⟨hl, h2⟩ hexit
            · exact Or.inl (by omega)
        rw [ih (acc ++ [r]) hacc2]
        have hassoc : (acc ++ [r]) ++ rs.filter (kwPass kw) = acc ++ r :: rs.filter (kwPass kw) := by
          simp
        rw [hassoc]
    · rw [scanRows, if_neg hkw]
      simp only [List.filter_cons, hkw]
      rw [ih acc hacc]
      simp [hkw]

/-- Lifting of `scanRows_spec` over the talker loop of one store. -/
theorem scanTalkers_spec (hashFn : String → String) (startT endT : Int)
    (senders : List String) (limit offset : Nat) (kw : Option (MsgRow → Bool))
    (s : Store) (ts : List String) :
    ∀ acc : List MsgRow, (limit = 0 ∨ acc.length < offset + limit) →
    scanTalkers hashFn startT endT senders limit offset kw s ts acc =
      if 0 < limit ∧
          offset + limit ≤ (acc ++ storeRows hashFn startT endT senders kw s ts).length then
        ((acc ++ storeRows hashFn startT endT senders kw s ts).take (offset + limit),
         some (paginate
           (sortBySeq ((acc ++ storeRows hashFn startT endT senders kw s ts).take (offset + limit)))
           offset limit))
      else (acc ++ storeRows hashFn startT endT senders kw s ts, none) := by
  induction ts with
  | nil =>
    intro acc hacc
    rw [if_neg (by simp [storeRows]; intro hl; omega)]
    simp [scanTalkers, storeRows]
  | cons t ts ih =>
    intro acc hacc
    by_cases hmem : s.talkers.contains (hashFn t)
    · have hsr : storeRows hashFn startT endT senders kw s (t :: ts) =
          (queryRows s (hashFn t) startT endT senders).filter (kwPass kw) ++
            storeRows hashFn startT endT senders kw s ts := by
        simp only [storeRows, List.map_cons, List.flatten_cons, talkerRows]
        rw [if_pos hmem]
      rw [scanTalkers, if_pos hmem]
      rw [scanRows_spec limit offset kw (queryRows s (hashFn t) startT endT senders) acc hacc]
      set Q := (queryRows s (hashFn t) startT endT senders).filter (kwPass kw) with hQ
      by_cases hexit : 0 < limit ∧ offset + limit ≤ (acc ++ Q).length
      · rw [if_pos hexit]
        have hfull : acc ++ storeRows hashFn startT endT senders kw s (t :: ts) =
            (acc ++ Q) ++ storeRows hashFn startT endT senders kw s ts := by
          rw [hsr, List.append_assoc]
        have hcond : offset + limit ≤
            (acc ++ storeRows hashFn startT endT senders kw s (t :: ts)).length := by
          rw [hfull]
          simp only [List.length_append] at hexit ⊢
          omega
        rw [if_pos ⟨hexit.1, hcond⟩]
        have htake : (acc ++ storeRows hashFn startT endT senders kw s (t :: ts)).take
            (offset + limit) = (acc ++ Q).take (offset + limit) := by
          rw [hfull, List.take_append_of_le_length hexit.2]
        rw [htake]
      · rw [if_neg hexit]
        have hacc2 : limit = 0 ∨ (acc ++ Q).length < offset + limit := by
          rcases hacc with h | h
          · exact Or.inl h
          · by_cases hl : 0 < limit
            · right
              rcases Nat.lt_or_ge ((acc ++ Q).length) (offset + limit) with h2 | h2
              · exact h2
              · exact absurd ⟨hl, h2⟩ hexit
            · exact Or.inl (by omega)
        show scanTalkers hashFn startT endT senders limit offset kw s ts (acc ++ Q) = _
        rw [ih (acc ++ Q) hacc2]
        rw [hsr, ← List.append_assoc]
    · have hsr : storeRows hashFn startT endT senders kw s (t :: ts) =
          storeRows hashFn startT endT senders kw s ts := by
        simp only [storeRows, List.map_cons, List.flatten_cons, talkerRows]
        rw [if_neg hmem, List.nil_append]
      rw [scanTalkers, if_neg hmem, ih acc hacc, hsr]

/-- Lifting over the store loop: the whole fan-out accumulation. -/
theorem scanStores_spec (hashFn : String → String) (startT endT : Int)
    (talkers senders : List String) (limit offset : Nat) (kw : Option (MsgRow → Bool))
    (ss : List Store) :
    ∀ acc : List MsgRow, (limit = 0 ∨ acc.length < offset + limit) →
    scanStores hashFn startT endT talkers senders limit offset kw ss acc =
      if 0 < limit ∧
          offset + limit ≤ (acc ++ fullRows hashFn startT endT talkers senders kw ss).length then
        ((acc ++ fullRows hashFn startT endT talkers senders kw ss).take (offset + limit),
         some (paginate
           (sortBySeq ((acc ++ fullRows hashFn startT endT talkers senders kw ss).take
             (offset + limit)))
           offset limit))
      else (acc ++ fullRows hashFn startT endT talkers senders kw ss, none) := by
  induction ss with
  | nil =>
    intro acc hacc
    rw [if_neg (by simp [fullRows]; intro hl; omega)]
    simp [scanStores, fullRows]
  | cons s ss ih =>
    intro acc hacc
    have hfr : fullRows hashFn startT endT talkers senders kw (s :: ss) =
        storeRows hashFn startT endT senders kw s talkers ++
          fullRows hashFn startT endT talkers senders kw ss := by
      simp [fullRows]
    rw [scanStores]
    rw [scanTalkers_spec hashFn startT endT senders limit offset kw s talkers acc hacc]
    set Q := storeRows hashFn startT endT senders kw s talkers with hQ
    by_cases hexit : 0 < limit ∧ offset + limit ≤ (acc ++ Q).length
    · rw [if_pos hexit]
      have hfull : acc ++ fullRows hashFn startT endT talkers senders kw (s :: ss) =
          (acc ++ Q) ++ fullRows hashFn startT endT talkers senders kw ss := by
        rw [hfr, List.append_assoc]
      have hcond : offset + limit ≤
          (acc ++ fullRows hashFn startT endT talkers senders kw (s :: ss)).length := by
        rw [hfull]
        simp only [List.length_append] at hexit ⊢
        omega
      rw [if_pos ⟨hexit.1, hcond⟩]
      have htake : (acc ++ fullRows hashFn startT endT talkers senders kw (s :: ss)).take
          (offset + limit) = (acc ++ Q).take (offset + limit) := by
        rw [hfull, List.take_append_of_le_length hexit.2]
      rw [htake]
    · rw [if_neg hexit]
      have hacc2 : limit = 0 ∨ (acc ++ Q).length < offset + limit := by
        rcases hacc with h | h
        · exact Or.inl h
        · by_cases hl : 0 < limit
          · right
            rcases Nat.lt_or_ge ((acc ++ Q).length) (offset + limit) with h2 | h2
            · exact h2
            · exact absurd ⟨hl, h2⟩ hexit
          · exact Or.inl (by omega)
      show scanStores hashFn startT endT talkers senders limit offset kw ss (acc ++ Q) = _
      rw [ih (acc ++ Q) hacc2]
      rw [hfr, ← List.append_assoc]

/-- Master description of a successful `GetMessages` run: with a positive
limit it paginates the sort of either the full fan-out accumulation or —
when the early exit fired — its prefix of length `offset+limit`; with
limit 0 it returns the whole sorted accumulation. -/
theorem getMessages_run (hashFn : String → String) (stores : List Store)
    (startT endT : Int) (talker sender : String) (kw : Option (MsgRow → Bool))
    (limit offset : Nat)
    (ht : talker ≠ "") (ht2 : str2List talker ',' ≠ [])
    (hs : stores.filter (storeMatches startT endT (str2List talker ',') hashFn) ≠ []) :
    getMessages hashFn stores startT endT talker sender kw limit offset =
      .ok (
        let F := fullRows hashFn startT endT (str2List talker ',') (str2List sender ',') kw
          (stores.filter (storeMatches startT endT (str2List talker ',') hashFn))
        if 0 < limit then
          if offset + limit ≤ F.length then
            paginate (sortBySeq (F.take (offset + limit))) offset limit
          else paginate (sortBySeq F) offset limit
        else sortBySeq F) := by
  unfold getMessages
  rw [if_neg ht, if_neg (by simp [List.isEmpty_iff, ht2]),
    if_neg (by simp [List.isEmpty_iff, hs])]
  dsimp only
  rw [scanStores_spec hashFn startT endT (str2List talker ',') (str2List sender ',')
    limit offset kw (stores.filter (storeMatches startT endT (str2List talker ',') hashFn))
    [] (by simp only [List.length_nil]; omega)]
  simp only [List.nil_append]
  set F := fullRows hashFn startT endT (str2List talker ',') (str2List sender ',') kw
    (stores.filter (storeMatches startT endT (str2List talker ',') hashFn)) with hF
  by_cases hl : 0 < limit
  · by_cases hle : offset + limit ≤ F.length
    · rw [if_pos ⟨hl, hle⟩]
      simp only [if_pos hl, if_pos hle]
    · rw [if_neg (fun hc => hle hc.2)]
      simp only [if_pos hl, if_neg hle]
  · rw [if_neg (fun hc => hl hc.1)]
    simp only [if_neg hl]

/-- When the fan-out accumulation is already sorted by sequence number,
a positive-limit query returns exactly the slice
`[offset, offset+limit)` of it, early exit or not. -/
theorem getMessages_sorted_slice (hashFn : String → String) (stores : List Store)
    (startT endT : Int) (talker sender : String) (kw : Option (MsgRow → Bool))
    (limit offset : Nat)
    (ht : talker ≠ "") (ht2 : str2List talker ',' ≠ [])
    (hs : stores.filter (storeMatches startT endT (str2List talker ',') hashFn) ≠ [])
    (hl : 0 < limit)
    (hsorted : (fullRows hashFn startT endT (str2List talker ',') (str2List sender ',') kw
      (stores.filter (storeMatches startT endT (str2List talker ',') hashFn))).Pairwise
        (fun a b => a.seq ≤ b.seq)) :
    getMessages hashFn stores startT endT talker sender kw limit offset =
      .ok (((fullRows hashFn startT endT (str2List talker ',') (str2List sender ',') kw
        (stores.filter (storeMatches startT endT (str2List talker ',') hashFn))).drop
          offset).take limit) := by
  rw [getMessages_run hashFn stores startT endT talker sender kw limit offset ht ht2 hs]
  dsimp only
  set F := fullRows hashFn startT endT (str2List talker ',') (str2List sender ',') kw
    (stores.filter (storeMatches startT endT (str2List talker ',') hashFn)) with hF
  rw [if_pos hl]
  by_cases hle : offset + limit ≤ F.length
  · rw [if_pos hle]
    rw [sortBySeq_eq_self _ (hsorted.sublist (List.take_sublist _ _))]
    rw [paginate_eq, List.drop_take, Nat.add_sub_cancel_left, List.take_take, min_self]
  · rw [if_neg hle]
    rw [sortBySeq_eq_self _ hsorted, paginate_eq]

/-- C6 (amended).  Provided the rows the fan-out accumulates arrive in
strictly increasing sequence order (stores visited in an order consistent
with the final sort order, as the spec's own open question demands), the
queries `limit=10,offset=0`, `limit=10,offset=10` and `limit=20,offset=0`
return disjoint, order-preserving slices whose concatenation is the
`limit=20` result.  Without that hypothesis the early-exit optimization
breaks the property (see the counterexample). -/
theorem getMessages_pagination (hashFn : String → String) (stores : List Store)
    (startT endT : Int) (talker sender : String) (kw : Option (MsgRow → Bool))
    (ht : talker ≠ "") (ht2 : str2List talker ',' ≠ [])
    (hs : stores.filter (storeMatches startT endT (str2List talker ',') hashFn) ≠ [])
    (hsorted : (fullRows hashFn startT endT (str2List talker ',') (str2List sender ',') kw
      (stores.filter (storeMatches startT endT (str2List talker ',') hashFn))).Pairwise
        (fun a b => a.seq < b.seq)) :
    getMessages hashFn stores startT endT talker sender kw 10 0 =
      .ok ((fullRows hashFn startT endT (str2List talker ',') (str2List sender ',') kw
        (stores.filter (storeMatches startT endT (str2List talker ',') hashFn))).take 10) ∧
    getMessages hashFn stores startT endT talker sender kw 10 10 =
      .ok (((fullRows hashFn startT endT (str2List talker ',') (str2List sender ',') kw
        (stores.filter (storeMatches startT endT (str2List talker ',') hashFn))).drop 10).take 10) ∧
    getMessages hashFn stores startT endT talker sender kw 20 0 =
      .ok ((fullRows hashFn startT endT (str2List talker ',') (str2List sender ',') kw
        (stores.filter (storeMatches startT endT (str2List talker ',') hashFn))).take 20) ∧
    (fullRows hashFn startT endT (str2List talker ',') (str2List sender ',') kw
        (stores.filter (storeMatches startT endT (str2List talker ',') hashFn))).take 10 ++
      ((fullRows hashFn startT endT (str2List talker ',') (str2List sender ',') kw
        (stores.filter (storeMatches startT endT (str2List talker ',') hashFn))).drop 10).take 10 =
      (fullRows hashFn startT endT (str2List talker ',') (str2List sender ',') kw
        (stores.filter (storeMatches startT endT (str2List talker ',') hashFn))).take 20 ∧
    (∀ x ∈ (fullRows hashFn startT endT (str2List talker ',') (str2List sender ',') kw
        (stores.filter (storeMatches startT endT (str2List talker ',') hashFn))).take 10,
      x ∉ ((fullRows hashFn startT endT (str2List talker ',') (str2List sender ',') kw
        (stores.filter (storeMatches startT endT (str2List talker ',') hashFn))).drop 10).take 10) ∧
    ((fullRows hashFn startT endT (str2List talker ',') (str2List sender ',') kw
      (stores.filter (storeMatches startT endT (str2List talker ',') hashFn))).take 10).Pairwise
        (fun a b => a.seq < b.seq) ∧
    (((fullRows hashFn startT endT (str2List talker ',') (str2List sender ',') kw
      (stores.filter (storeMatches startT endT (str2List talker ',') hashFn))).drop 10).take
        10).Pairwise (fun a b => a.seq < b.seq) ∧
    ((fullRows hashFn startT endT (str2List talker ',') (str2List sender ',') kw
      (stores.filter (storeMatches startT endT (str2List talker ',') hashFn))).take 20).Pairwise
        (fun a b => a.seq < b.seq) := by
  set F := fullRows hashFn startT endT (str2List talker ',') (str2List sender ',') kw
    (stores.filter (storeMatches startT endT (str2List talker ',') hashFn)) with hF
  have hle : F.Pairwise (fun a b => a.seq ≤ b.seq) :=
    hsorted.imp (fun h => Nat.le_of_lt h)
  have h1 := getMessages_sorted_slice hashFn stores startT endT talker sender kw 10 0
    ht ht2 hs (by omega) hle
  have h2 := getMessages_sorted_slice hashFn stores startT endT talker sender kw 10 10
    ht ht2 hs (by omega) hle
  have h3 := getMessages_sorted_slice hashFn stores startT endT talker sender kw 20 0
    ht ht2 hs (by omega) hle
  rw [List.drop_zero] at h1 h3
  have hsplit : ∀ x ∈ F.take 10, ∀ y ∈ F.drop 10, x.seq < y.seq := by
    have hp := hsorted
    rw [← List.take_append_drop 10 F] at hp
    exact fun x hx y hy => (List.pairwise_append.mp hp).2.2 x hx y hy
  refine ⟨h1, h2, h3, (List.take_add F 10 10).symm, ?_, ?_, ?_, ?_⟩
  · intro x hx hmem
    have hy : x ∈ F.drop 10 := List.take_subset _ _ hmem
    exact absurd (hsplit x hx x hy) (by omega)
  · exact hsorted.sublist (List.take_sublist _ _)
  · exact hsorted.sublist ((List.take_sublist _ _).trans (List.drop_sublist _ _))
  · exact hsorted.sublist (List.take_sublist _ _)

/-- C3.  With store A covering `[T0,T1]` holding rows with sequence
numbers 1..5 for talker `"alice"` and store B covering `[T1,T2]` holding
6..9 (all row times inside their stores' ranges, no sender or keyword
filter), the query over `[T0,T2]` with `limit=3, offset=2` returns exactly
the rows with sequence numbers 3, 4, 5 in ascending order. -/
theorem getMessages_end_to_end (hashFn : String → String) (T0 T1 T2 : Int)
    (a1 a2 a3 a4 a5 b6 b7 b8 b9 : MsgRow)
    (h01 : T0 < T1) (h12 : T1 < T2)
    (hseq : a1.seq = 1 ∧ a2.seq = 2 ∧ a3.seq = 3 ∧ a4.seq = 4 ∧ a5.seq = 5 ∧
      b6.seq = 6 ∧ b7.seq = 7 ∧ b8.seq = 8 ∧ b9.seq = 9)
    (htimeA : ∀ r ∈ [a1, a2, a3, a4, a5], T0 ≤ r.createTime ∧ r.createTime ≤ T1)
    (htimeB : ∀ r ∈ [b6, b7, b8, b9], T1 ≤ r.createTime ∧ r.createTime ≤ T2) :
    getMessages hashFn
      [⟨T0, T1, [hashFn "alice"], fun h => if h = hashFn "alice" then [a1, a2, a3, a4, a5] else []⟩,
       ⟨T1, T2, [hashFn "alice"], fun h => if h = hashFn "alice" then [b6, b7, b8, b9] else []⟩]
      T0 T2 "alice" "" none 3 2 = .ok [a3, a4, a5] ∧
    [a3, a4, a5].map MsgRow.seq = [3, 4, 5] := by
  obtain ⟨e1, e2, e3, e4, e5, e6, e7, e8, e9⟩ := hseq
  set SA : Store :=
    ⟨T0, T1, [hashFn "alice"], fun h => if h = hashFn "alice" then [a1, a2, a3, a4, a5] else []⟩
    with hSAdef
  set SB : Store :=
    ⟨T1, T2, [hashFn "alice"], fun h => if h = hashFn "alice" then [b6, b7, b8, b9] else []⟩
    with hSBdef
  have hts : str2List "alice" ',' = ["alice"] := rfl
  have hsend : str2List "" ',' = [] := rfl
  have hfkw : ∀ l : List MsgRow, l.filter (kwPass none) = l := fun l =>
    List.filter_eq_self.mpr (fun a _ => rfl)
  have hcontA : SA.talkers.contains (hashFn "alice") = true := by simp
  have hcontB : SB.talkers.contains (hashFn "alice") = true := by simp
  have hmA : storeMatches T0 T2 ["alice"] hashFn SA = true := by
    simp only [storeMatches]
    have d1 : decide (T1 < T0) = false := decide_eq_false (by omega)
    have d2 : decide (T2 < T0) = false := decide_eq_false (by omega)
    simp [d1, d2]
  have hmB : storeMatches T0 T2 ["alice"] hashFn SB = true := by
    simp only [storeMatches]
    have d1 : decide (T2 < T0) = false := decide_eq_false (by omega)
    have d2 : decide (T2 < T1) = false := decide_eq_false (by omega)
    simp [d1, d2]
  have hfilter : List.filter (storeMatches T0 T2 (str2List "alice" ',') hashFn) [SA, SB] =
      [SA, SB] := by
    rw [hts]
    simp [List.filter_cons, hmA, hmB]
  have hsorted5 : ([a1, a2, a3, a4, a5] : List MsgRow).Pairwise (fun a b => a.seq ≤ b.seq) := by
    simp [List.pairwise_cons, e1, e2, e3, e4, e5]
  have hRowPassA : ∀ r ∈ [a1, a2, a3, a4, a5], rowPass T0 T2 [] r = true := by
    intro r hr
    obtain ⟨hA1, hA2⟩ := htimeA r hr
    simp only [rowPass, List.isEmpty_nil, Bool.true_or, Bool.and_true]
    rw [decide_eq_true hA1, decide_eq_true (by omega : r.createTime ≤ T2)]
    rfl
  have hqA : queryRows SA (hashFn "alice") T0 T2 [] = [a1, a2, a3, a4, a5] := by
    unfold queryRows
    rw [show SA.tables (hashFn "alice") = [a1, a2, a3, a4, a5] from by
      rw [hSAdef]
      simp]
    rw [List.filter_eq_self.mpr hRowPassA, sortBySeq_eq_self _ hsorted5]
  have hSArows : storeRows hashFn T0 T2 [] none SA ["alice"] = [a1, a2, a3, a4, a5] := by
    simp only [storeRows, List.map_cons, List.map_nil, List.flatten_cons, List.flatten_nil,
      List.append_nil, talkerRows]
    rw [if_pos hcontA, hfkw, hqA]
  have hs : List.filter (storeMatches T0 T2 (str2List "alice" ',') hashFn) [SA, SB] ≠ [] := by
    rw [hfilter]
    exact List.cons_ne_nil _ _
  rw [getMessages_run hashFn [SA, SB] T0 T2 "alice" "" none 3 2 (by decide) (by decide) hs]
  dsimp only
  rw [hfilter, hts, hsend]
  have hfull : fullRows hashFn T0 T2 ["alice"] [] none [SA, SB] =
      [a1, a2, a3, a4, a5] ++ storeRows hashFn T0 T2 [] none SB ["alice"] := by
    simp only [fullRows, List.map_cons, List.map_nil, List.flatten_cons, List.flatten_nil,
      List.append_nil, hSArows]
  rw [hfull]
  rw [if_pos (by norm_num)]
  rw [if_pos (show 2 + 3 ≤ ([a1, a2, a3, a4, a5] ++
      storeRows hashFn T0 T2 [] none SB ["alice"]).length from by
    simp only [List.length_append, List.length_cons, List.length_nil]
    omega)]
  rw [show (2 + 3 : Nat) = 5 from rfl]
  rw [List.take_left' (show ([a1, a2, a3, a4, a5] : List MsgRow).length = 5 from rfl)]
  rw [sortBySeq_eq_self _ hsorted5, paginate_eq]
  exact ⟨rfl, by simp [e3, e4, e5]⟩

/-- Witness for C3 at `hashFn = id`, `T0,T1,T2 = 0,10,20` and concrete
rows. -/
theorem getMessages_end_to_end_witness :
    getMessages id
      [⟨0, 10, [id "alice"], fun h => if h = id "alice" then
          [⟨1, 5, "u", "m"⟩, ⟨2, 5, "u", "m"⟩, ⟨3, 5, "u", "m"⟩, ⟨4, 5, "u", "m"⟩,
           ⟨5, 5, "u", "m"⟩] else []⟩,
       ⟨10, 20, [id "alice"], fun h => if h = id "alice" then
          [⟨6, 15, "u", "m"⟩, ⟨7, 15, "u", "m"⟩, ⟨8, 15, "u", "m"⟩, ⟨9, 15, "u", "m"⟩]
        else []⟩]
      0 20 "alice" "" none 3 2 =
      .ok [⟨3, 5, "u", "m"⟩, ⟨4, 5, "u", "m"⟩, ⟨5, 5, "u", "m"⟩] :=
  (getMessages_end_to_end id 0 10 20
    ⟨1, 5, "u", "m"⟩ ⟨2, 5, "u", "m"⟩ ⟨3, 5, "u", "m"⟩ ⟨4, 5, "u", "m"⟩ ⟨5, 5, "u", "m"⟩
    ⟨6, 15, "u", "m"⟩ ⟨7, 15, "u", "m"⟩ ⟨8, 15, "u", "m"⟩ ⟨9, 15, "u", "m"⟩
    (by decide) (by decide) (by decide) (by decide) (by decide)).1

/-- Counterexample to C6 as stated: the earlier store holds sequences
100..109, the later store 1..20; the early exit then makes
`limit=10,offset=0` and `limit=10,offset=10` return the same ten rows, so
the two slices are not disjoint and their concatenation is not the
`limit=20,offset=0` result. -/
theorem getMessages_pagination_counterexample :
    getMessages id [pageStoreA, pageStoreB] 0 20 "alice" "" none 10 0 = .ok pageRowsA ∧
    getMessages id [pageStoreA, pageStoreB] 0 20 "alice" "" none 10 10 = .ok pageRowsA ∧
    getMessages id [pageStoreA, pageStoreB] 0 20 "alice" "" none 20 0 =
      .ok ((List.range' 1 10).map (fun i => ⟨i, 15, "u", "m"⟩) ++ pageRowsA) ∧
    pageRowsA ++ pageRowsA ≠
      (List.range' 1 10).map (fun i => (⟨i, 15, "u", "m"⟩ : MsgRow)) ++ pageRowsA := by
  decide

/-- Witness for C6 (amended) on a single shard holding 25 rows in
increasing sequence order: `limit=10,offset=0` returns the first ten. -/
theorem getMessages_pagination_witness :
    getMessages id [paginationStore] 0 10 "alice" "" none 10 0 =
      .ok ((fullRows id 0 10 (str2List "alice" ',') (str2List "" ',') none
        ([paginationStore].filter (storeMatches 0 10 (str2List "alice" ',') id))).take 10) :=
  (getMessages_pagination id [paginationStore] 0 10 "alice" "" none
    (by decide) (by decide) (List.ne_nil_of_length_pos (by decide)) (by decide)).1

/-! ## C7: byte-range reads, zero padding and end-of-file -/

/-- A file slice of n bytes has length n. -/
theorem fileSlice_length (pages : Nat → List Nat) (ps o n : Nat) :
    (fileSlice pages ps o n).length = n := by
  simp [fileSlice]

/-- Adjacent file slices concatenate. -/
theorem fileSlice_append (pages : Nat → List Nat) (ps o c m : Nat) :
    fileSlice pages ps o c ++ fileSlice pages ps (o + c) m = fileSlice pages ps o (c + m) := by
  unfold fileSlice
  rw [← List.map_append]
  have h := List.range'_append o c m 1
  simp only [one_mul] at h
  rw [h, Nat.add_comm m c]

/-- The chunk the read loop copies from one page is exactly the
corresponding slice of the decrypted file. -/
theorem goSlice_page (pages : Nat → List Nat) (ps : Nat) (hps : 0 < ps)
    (hlen : ∀ k, (pages k).length = ps) (offset c : Nat)
    (hc : offset % ps + c ≤ ps) :
    goSlice (pages (offset / ps)) (offset % ps) (offset % ps + c) =
      fileSlice pages ps offset c := by
  apply List.ext_getElem
  · rw [goSlice_length, hlen, fileSlice_length]
    have := Nat.mod_lt offset hps
    omega
  · intro i h1 h2
    have hlen2 : c ≤ (fileSlice pages ps offset c).length := by rw [fileSlice_length]
    rw [fileSlice_length] at h2
    have hibound : offset % ps + i < ps := by omega
    unfold goSlice
    rw [List.getElem_drop, List.getElem_take]
    unfold fileSlice
    rw [List.getElem_map, List.getElem_range']
    unfold fileByte
    simp only [one_mul]
    have hdm := Nat.div_add_mod offset ps
    have hdiv : (offset + i) / ps = offset / ps := by
      have h1 : offset + i = ps * (offset / ps) + (offset % ps + i) := by omega
      rw [h1, Nat.mul_add_div hps, Nat.div_eq_of_lt hibound, Nat.add_zero]
    have hmod : (offset + i) % ps = offset % ps + i := by
      have h1 : offset + i = ps * (offset / ps) + (offset % ps + i) := by omega
      rw [h1, Nat.mul_add_mod, Nat.mod_eq_of_lt hibound]
    rw [hdiv, hmod]
    rw [List.getD_eq_getElem]

/-- When every page fetch succeeds with pages of `pageSize` bytes, the
read loop returns exactly the decrypted file bytes from `offset`, clamped
by the request length and the logical file end, with no error. -/
theorem readLoop_ok (pages : Nat → List Nat) (pageSize size : Nat)
    (hps : 0 < pageSize) (hlen : ∀ k, (pages k).length = pageSize) :
    ∀ remaining offset,
      readLoop (fun k => .ok (pages k)) pageSize size offset remaining =
        (fileSlice pages pageSize offset (min remaining (size - offset)), none) := by
  intro remaining
  induction remaining using Nat.strong_induction_on with
  | _ remaining ih =>
    intro offset
    rw [readLoop]
    by_cases h0 : remaining = 0 ∨ size ≤ offset
    · rw [if_pos h0]
      have hmin : min remaining (size - offset) = 0 := by omega
      rw [hmin]
      rfl
    · rw [if_neg h0]
      push_neg at h0
      have hmodlt : offset % pageSize < pageSize := Nat.mod_lt offset hps
      set c := min (min (pageSize - offset % pageSize) remaining) (size - offset) with hc
      have hcpos : 0 < c := by omega
      have hcle1 : c ≤ remaining := by omega
      have hcle2 : c ≤ size - offset := by omega
      have hcle3 : offset % pageSize + c ≤ pageSize := by omega
      dsimp only
      rw [if_neg (by omega : ¬ c = 0)]
      rw [ih (remaining - c) (by omega) (offset + c)]
      dsimp only
      rw [goSlice_page pages pageSize hps hlen offset c hcle3]
      rw [fileSlice_append]
      have harith : c + min (remaining - c) (size - (offset + c)) =
          min remaining (size - offset) := by omega
      rw [harith]

/-- C7.  For a read of `amt > 0` bytes at `offset` on a file of logical
size `size` whose pages all decrypt: if the range straddles the end
(`offset < size < offset + amt`) the buffer is filled with the decrypted
bytes `[offset, size)` followed by zeros — never garbage — and the read
succeeds with `SQLITE_OK`; a read at or after the logical end yields an
all-zero buffer and `SQLITE_IOERR_SHORT_READ`, SQLite's end-of-file
signal. -/
theorem goWechatFileRead_spec (pages : Nat → List Nat) (pageSize size amt offset : Nat)
    (hps : 0 < pageSize) (hlen : ∀ k, (pages k).length = pageSize) (hamt : 0 < amt) :
    (offset < size → size < offset + amt →
      goWechatFileRead (fun k => .ok (pages k)) pageSize size amt offset =
        (fileSlice pages pageSize offset (size - offset) ++
          List.replicate (amt - (size - offset)) 0, SQLITE_OK)) ∧
    (size ≤ offset →
      goWechatFileRead (fun k => .ok (pages k)) pageSize size amt offset =
        (List.replicate amt 0, SQLITE_IOERR_SHORT_READ)) := by
  constructor
  · intro hlt hshort
    have hread : wfRead (fun k => .ok (pages k)) pageSize size amt offset =
        (fileSlice pages pageSize offset (size - offset), none) := by
      unfold wfRead
      rw [if_neg (by omega : ¬ size ≤ offset)]
      rw [readLoop_ok pages pageSize size hps hlen amt offset]
      have hmin : min amt (size - offset) = size - offset := by omega
      rw [hmin]
    unfold goWechatFileRead
    rw [hread]
    dsimp only
    rw [fileSlice_length]
    rw [if_neg (by omega : ¬ (size - offset = 0 ∧ 0 < amt))]
  · intro hge
    have hread : wfRead (fun k => .ok (pages k)) pageSize size amt offset =
        ([], some "EOF") := by
      unfold wfRead
      rw [if_pos hge]
    unfold goWechatFileRead
    rw [hread]
    dsimp only
    rw [if_pos rfl]
    rw [if_pos ⟨rfl, hamt⟩]
    simp

/-- Witness for C7 on a one-byte-page file of size 1: reading 2 bytes at
offset 0 yields the decrypted byte then a zero pad, with `SQLITE_OK`. -/
theorem goWechatFileRead_spec_witness :
    goWechatFileRead (fun _ => .ok [7]) 1 1 2 0 = ([7, 0], SQLITE_OK) :=
  ((goWechatFileRead_spec (fun _ => [7]) 1 1 2 0 (by decide) (fun _ => rfl)
    (by decide)).1 (by decide) (by decide)).trans (by decide)
